import Mathlib

/-!
# Verification of the bayespam classifier core

A shallow embedding of `src/classifier.rs` (crate `bayespam`): tokenization
(`load_word_list`), the frequency model (`token_table` with per-token
ham/spam counters), the per-token probability estimator (`rate_words`), the
score aggregator (`score`), the decision function (`identify`), and the
module-level convenience functions that read a model from the fixed default
path.

Modelling conventions:
* Rust `String` / `&str` values are modelled as `List Char` (`Str` below);
  character classes (`is_lowercase`, `is_uppercase`, `is_whitespace`,
  `to_lowercase`) are modelled by the corresponding Lean `Char` functions,
  i.e. over the ASCII fragment of Unicode.
* `f32` arithmetic is modelled by exact rational arithmetic (`ℚ`).
* `u32` counters are modelled by `Nat` (no claim here concerns overflow).
* `HashMap<String, Counter>` is modelled as an association list; iteration
  order of the hash map is irrelevant to every operation modelled (lookups
  and multiset sums).
* File I/O (`File::open`, `serde_json::from_reader`) is external to the
  crate and is modelled by `Except`-valued parameters.
-/

set_option autoImplicit false

namespace Bayespam

/-- Rust `String`/`&str`, modelled as its character list. -/
abbrev Str := List Char

/-- `const INIT_RATING: f32 = 0.4`. -/
def INIT_RATING : ℚ := 2/5

/-- `const SPAM_PROB_THRESHOLD: f32 = 0.8`. -/
def SPAM_PROB_THRESHOLD : ℚ := 4/5

/-- `const DEFAULT_FILE_PATH: &str = "model.json"`. -/
def DEFAULT_FILE_PATH : Str := "model.json".data

/-- `struct Counter { ham: u32, spam: u32 }`. -/
structure Counter where
  ham : Nat
  spam : Nat
deriving DecidableEq, Repr

/-- `struct Model { token_table: HashMap<String, Counter> }`, modelled as an
association list from token to counter. -/
abbrev TokenTable := List (Str × Counter)

/-- The character predicate of `load_word_list`: the `replace` call keeps a
character exactly when it is a lowercase letter, an uppercase letter, a
whitespace character, or the literal colon. -/
def keepChar (c : Char) : Bool :=
  c.isLower || c.isUpper || c.isWhitespace || c == ':'

/-- `msg.replace(|c| !(…), "")`: every character failing `keepChar` is
removed (not replaced by a separator). -/
def cleanChars (s : Str) : Str :=
  s.filter keepChar

/-- `.trim().split_whitespace()`: split on runs of whitespace, dropping
empty substrings.  `trim` is absorbed: splitting on every whitespace
character and discarding empty segments already ignores leading and
trailing whitespace. -/
def splitWhitespace (s : Str) : List Str :=
  (s.splitOnP (fun c => c.isWhitespace)).filter (fun w => !w.isEmpty)

/-- `Classifier::load_word_list`: clean the characters, split on
whitespace, lowercase each substring, keep only those of length `> 2`. -/
def load_word_list (msg : Str) : List Str :=
  ((splitWhitespace (cleanChars msg)).map (fun w => w.map Char.toLower)).filter
    (fun w => decide (2 < w.length))

/-- `self.model.token_table.get(&word)` (first matching key). -/
def lookupToken : TokenTable → Str → Option Counter
  | [], _ => none
  | (k, c) :: t, w => if k = w then some c else lookupToken t w

/-- `self.model.token_table.entry(word).or_default(); counter.spam += 1`:
if the token is absent a `(ham = 0, spam = 0)` counter is created first,
then its spam field is incremented. -/
def increment_spam : TokenTable → Str → TokenTable
  | [], w => [(w, { ham := 0, spam := 0 + 1 })]
  | (k, c) :: t, w =>
    if k = w then (k, { c with spam := c.spam + 1 }) :: t
    else (k, c) :: increment_spam t w

/-- `self.model.token_table.entry(word).or_default(); counter.ham += 1`. -/
def increment_ham : TokenTable → Str → TokenTable
  | [], w => [(w, { ham := 0 + 1, spam := 0 })]
  | (k, c) :: t, w =>
    if k = w then (k, { c with ham := c.ham + 1 }) :: t
    else (k, c) :: increment_ham t w

/-- `Classifier::train_spam`: one `increment_spam` per token occurrence. -/
def train_spam (t : TokenTable) (msg : Str) : TokenTable :=
  (load_word_list msg).foldl increment_spam t

/-- `Classifier::train_ham`: one `increment_ham` per token occurrence. -/
def train_ham (t : TokenTable) (msg : Str) : TokenTable :=
  (load_word_list msg).foldl increment_ham t

/-- `Classifier::spam_total_count`: `token_table.values().map(|x| x.spam).sum()`. -/
def spam_total_count (t : TokenTable) : Nat :=
  (t.map (fun e => e.2.spam)).sum

/-- `Classifier::ham_total_count`: `token_table.values().map(|x| x.ham).sum()`. -/
def ham_total_count (t : TokenTable) : Nat :=
  (t.map (fun e => e.2.ham)).sum

/-- The per-word body of the closure inside `Classifier::rate_words`. -/
def rate_word (t : TokenTable) (word : Str) : ℚ :=
  match lookupToken t word with
  | some counter =>
    if counter.spam > 0 ∧ counter.ham = 0 then 99/100
    else if counter.spam = 0 ∧ counter.ham > 0 then 1/100
    else if spam_total_count t > 0 ∧ ham_total_count t > 0 then
      let ham_prob : ℚ := (counter.ham : ℚ) / (ham_total_count t : ℚ)
      let spam_prob : ℚ := (counter.spam : ℚ) / (spam_total_count t : ℚ)
      max (spam_prob / (ham_prob + spam_prob)) (1/100)
    else INIT_RATING
  | none => INIT_RATING

/-- `Classifier::rate_words`: the per-word closure mapped over the word list. -/
def rate_words (t : TokenTable) (msg : Str) : List ℚ :=
  (load_word_list msg).map (rate_word t)

/-- `Classifier::score`.  `sort_unstable_by(|a, b| a.partial_cmp(b).unwrap())`
is an ascending sort, modelled by `mergeSort` with the `≤` comparator
(stable vs. unstable is observationally irrelevant: only the sorted value
sequence is consumed). -/
def score (t : TokenTable) (msg : Str) : ℚ :=
  let ratings := rate_words t msg
  if ratings.length = 0 then 0
  else
    let kept :=
      if 20 < ratings.length then
        let sorted := ratings.mergeSort (fun a b => decide (a ≤ b))
        sorted.take 10 ++ sorted.drop (ratings.length - 10)
      else ratings
    let product := kept.prod
    let alt_product := (kept.map (fun r => 1 - r)).prod
    product / (product + alt_product)

/-- `Classifier::identify`: `self.score(msg) > SPAM_PROB_THRESHOLD`. -/
def identify (t : TokenTable) (msg : Str) : Bool :=
  decide (SPAM_PROB_THRESHOLD < score t msg)

/-- The module-level `score`: open the default model path, deserialize it,
and score with the resulting model, returning the first error encountered.
`openFile` models `File::open` and `from_reader` models
`serde_json::from_reader` (both external to the crate). -/
def score_pretrained {ε φ : Type} (openFile : Str → Except ε φ)
    (from_reader : φ → Except ε TokenTable) (msg : Str) : Except ε ℚ :=
  match openFile DEFAULT_FILE_PATH with
  | .error e => .error e
  | .ok file =>
    match from_reader file with
    | .error e => .error e
    | .ok t => .ok (score t msg)

/-- The module-level `identify`: `let score = score(msg)?;
Ok(score > SPAM_PROB_THRESHOLD)`. -/
def identify_pretrained {ε φ : Type} (openFile : Str → Except ε φ)
    (from_reader : φ → Except ε TokenTable) (msg : Str) : Except ε Bool :=
  match score_pretrained openFile from_reader msg with
  | .error e => .error e
  | .ok s => .ok (decide (SPAM_PROB_THRESHOLD < s))

/-- Token tables reachable from the empty model by training calls only
(`Classifier::new()` followed by any sequence of `train_spam` /
`train_ham`). -/
inductive Built : TokenTable → Prop
  | empty : Built []
  | step_spam (t : TokenTable) (msg : Str) : Built t → Built (train_spam t msg)
  | step_ham (t : TokenTable) (msg : Str) : Built t → Built (train_ham t msg)

/-- The character shape of every token produced by `load_word_list`: a
lowercase ASCII letter or the colon. -/
def GoodChar (c : Char) : Prop :=
  c.isLower = true ∨ c = ':'

/-! ### Character-level helper lemmas -/

theorem toLower_of_isLower {c : Char} (h : c.isLower = true) : c.toLower = c := by
  simp [Char.isLower, UInt32.le_def, BitVec.le_def, UInt32.toNat] at h
  simp [Char.toLower, Char.toNat, UInt32.toNat]
  intro h1 h2
  omega

theorem isLower_toLower_of_isUpper {c : Char} (h : c.isUpper = true) :
    (c.toLower).isLower = true := by
  simp [Char.isUpper, UInt32.le_def, BitVec.le_def, UInt32.toNat] at h
  simp [Char.toLower, Char.toNat, UInt32.toNat]
  rw [if_pos (by omega)]
  simp [Char.isLower, Char.ofNat, Nat.isValidChar, UInt32.le_def, BitVec.le_def]
  rw [dif_pos (by omega)]
  simp [Char.ofNatAux, UInt32.ofNat, BitVec.ofNat, Fin.ofNat, UInt32.toNat]
  omega

theorem isWhitespace_false_of_isLower {c : Char} (h : c.isLower = true) :
    c.isWhitespace = false := by
  simp [Char.isLower, UInt32.le_def, BitVec.le_def, UInt32.toNat] at h
  simp [Char.isWhitespace, Char.ext_iff, UInt32.ext_iff, BitVec.toNat_eq, UInt32.size,
    UInt32.toNat]
  omega

theorem goodChar_toLower {c : Char} (hk : keepChar c = true)
    (hw : c.isWhitespace = false) : GoodChar c.toLower := by
  simp only [keepChar, Bool.or_eq_true, beq_iff_eq] at hk
  rcases hk with ((h | h) | h) | h
  · exact Or.inl (by rw [toLower_of_isLower h]; exact h)
  · exact Or.inl (isLower_toLower_of_isUpper h)
  · rw [h] at hw; cases hw
  · subst h
    exact Or.inr (by decide)

theorem goodChar_props {c : Char} (h : GoodChar c) :
    keepChar c = true ∧ c.isWhitespace = false ∧ c.toLower = c := by
  rcases h with h | h
  · exact ⟨by simp [keepChar, h], isWhitespace_false_of_isLower h, toLower_of_isLower h⟩
  · subst h
    refine ⟨by decide, by decide, by decide⟩

/-! ### Tokenizer helper lemmas -/

theorem splitOnP_mem_chars (p : Char → Bool) (l : Str) :
    ∀ w ∈ l.splitOnP p, ∀ c ∈ w, c ∈ l ∧ p c = false := by
  induction l with
  | nil =>
    intro w hw c hc
    simp [List.splitOnP_nil] at hw
    subst hw
    cases hc
  | cons x xs ih =>
    intro w hw c hc
    rw [List.splitOnP_cons] at hw
    by_cases hx : p x
    · rw [if_pos hx] at hw
      rcases List.mem_cons.mp hw with rfl | hw
      · cases hc
      · have := ih w hw c hc
        exact ⟨List.mem_cons_of_mem _ this.1, this.2⟩
    · rw [if_neg hx] at hw
      obtain ⟨h, t, hsplit⟩ : ∃ h t, xs.splitOnP p = h :: t := by
        cases hs : xs.splitOnP p with
        | nil => exact absurd hs (List.splitOnP_ne_nil _ _)
        | cons h t => exact ⟨h, t, rfl⟩
      rw [hsplit] at hw
      simp only [List.modifyHead] at hw
      rcases List.mem_cons.mp hw with rfl | hw
      · rcases List.mem_cons.mp hc with rfl | hc
        · exact ⟨List.mem_cons_self _ _, Bool.eq_false_iff.mpr hx⟩
        · have := ih h (hsplit ▸ List.mem_cons_self _ _) c hc
          exact ⟨List.mem_cons_of_mem _ this.1, this.2⟩
      · have := ih w (hsplit ▸ List.mem_cons_of_mem _ hw) c hc
        exact ⟨List.mem_cons_of_mem _ this.1, this.2⟩

theorem splitWhitespace_mem (s : Str) :
    ∀ w ∈ splitWhitespace s, w ≠ [] ∧ ∀ c ∈ w, c ∈ s ∧ c.isWhitespace = false := by
  intro w hw
  rw [splitWhitespace, List.mem_filter] at hw
  refine ⟨by simpa using hw.2, fun c hc => ?_⟩
  exact splitOnP_mem_chars _ s w hw.1 c hc

theorem load_word_list_mem (m : Str) :
    ∀ tkn ∈ load_word_list m, 2 < tkn.length ∧ ∀ c ∈ tkn, GoodChar c := by
  intro tkn htkn
  rw [load_word_list, List.mem_filter] at htkn
  obtain ⟨hmem, hlen⟩ := htkn
  obtain ⟨w, hw, rfl⟩ := List.mem_map.mp hmem
  refine ⟨by simpa using hlen, fun c hc => ?_⟩
  obtain ⟨c0, hc0, rfl⟩ := List.mem_map.mp hc
  have h1 := (splitWhitespace_mem _ w hw).2 c0 hc0
  have h2 : keepChar c0 = true := (List.mem_filter.mp h1.1).2
  exact goodChar_toLower h2 h1.2

/-! ### Claim C5 -/

/-- C5: `load_word_list` is a total function (it is a Lean `def`, defined for
every input string, including the empty string and strings with no
alphabetic characters, and returns a possibly empty list), and every token
it returns is lowercase (fixed by `toLower`), has length strictly greater
than `2`, and consists only of characters surviving the cleaning filter
(letters or the colon), whitespace excluded — the filter removes rejected
characters rather than replacing them by separators (`cleanChars` is a
`filter`). -/
theorem load_word_list_total_shape (m : Str) (tkn : Str) (h : tkn ∈ load_word_list m) :
    2 < tkn.length ∧ ∀ c ∈ tkn,
      (c.isLower = true ∨ c = ':') ∧ keepChar c = true ∧ c.isWhitespace = false ∧
        c.toLower = c := by
  obtain ⟨hlen, hchars⟩ := load_word_list_mem m tkn h
  refine ⟨hlen, fun c hc => ?_⟩
  have hg := hchars c hc
  obtain ⟨h1, h2, h3⟩ := goodChar_props hg
  exact ⟨hg, h1, h2, h3⟩

/-- Witness for C5 at the spec's example message. -/
theorem load_word_list_total_shape_witness :
    "bob".data ∈ load_word_list "Hi Bob, dont forget our meeting today at 4pm.".data ∧
      (2 < "bob".data.length ∧ ∀ c ∈ "bob".data,
        (c.isLower = true ∨ c = ':') ∧ keepChar c = true ∧ c.isWhitespace = false ∧
          c.toLower = c) :=
  ⟨by decide,
    load_word_list_total_shape "Hi Bob, dont forget our meeting today at 4pm.".data
      "bob".data (by decide)⟩

/-! ### Claim C6 -/

/-- C6: for every classifier state and every message whose tokenization
yields no tokens, the ratings sequence is empty and `score` returns
exactly `0`. -/
theorem score_no_tokens (t : TokenTable) (msg : Str) (h : load_word_list msg = []) :
    rate_words t msg = [] ∧ score t msg = 0 := by
  have hr : rate_words t msg = [] := by rw [rate_words, h]; rfl
  exact ⟨hr, by simp [score, hr]⟩

/-- Witness for C6 at the empty message and at a message all of whose
characters are stripped by cleaning. -/
theorem score_no_tokens_witness :
    load_word_list "".data = [] ∧ (rate_words [] "".data = [] ∧ score [] "".data = 0) ∧
      load_word_list "!!! 123 @@@".data = [] ∧
      (rate_words [] "!!! 123 @@@".data = [] ∧ score [] "!!! 123 @@@".data = 0) :=
  ⟨by decide, score_no_tokens [] "".data (by decide), by decide,
    score_no_tokens [] "!!! 123 @@@".data (by decide)⟩

/-! ### Claim C2 -/

/-- A sample table with a never-seen token, a spam-only token, a ham-only
token and a mixed token. -/
def wtab : TokenTable :=
  [("aaa".data, ⟨0, 2⟩), ("bbb".data, ⟨3, 0⟩), ("ccc".data, ⟨1, 2⟩)]

/-- C2: the case policy of the per-token estimator: an absent token gets
`INIT_RATING` (0.4); a spam-only token gets `0.99` whatever its count; a
ham-only token gets `0.01`; a token with both counts positive (and both
global totals positive) gets `max(spam_prob / (ham_prob + spam_prob), 0.01)`
with `ham_prob = counter.ham / ham_total` and
`spam_prob = counter.spam / spam_total`. -/
theorem rate_word_case_policy (t : TokenTable) (w : Str) :
    (lookupToken t w = none → rate_word t w = INIT_RATING) ∧
    (∀ cnt, lookupToken t w = some cnt → 0 < cnt.spam → cnt.ham = 0 →
      rate_word t w = 99/100) ∧
    (∀ cnt, lookupToken t w = some cnt → cnt.spam = 0 → 0 < cnt.ham →
      rate_word t w = 1/100) ∧
    (∀ cnt, lookupToken t w = some cnt → 0 < cnt.spam → 0 < cnt.ham →
      0 < spam_total_count t → 0 < ham_total_count t →
      rate_word t w =
        max ((cnt.spam : ℚ) / (spam_total_count t : ℚ) /
            ((cnt.ham : ℚ) / (ham_total_count t : ℚ) +
              (cnt.spam : ℚ) / (spam_total_count t : ℚ)))
          (1/100)) := by
  refine ⟨fun h => by simp [rate_word, h], fun cnt h hs hh => ?_,
    fun cnt h hs hh => ?_, fun cnt h hs hh hst hht => ?_⟩
  · simp only [rate_word, h]
    rw [if_pos (And.intro hs hh)]
  · simp only [rate_word, h]
    rw [if_neg (by omega), if_pos (And.intro hs hh)]
  · simp only [rate_word, h]
    rw [if_neg (by omega), if_neg (by omega), if_pos (And.intro hst hht)]

/-- Witness for C2: all four cases of the policy at concrete inputs. -/
theorem rate_word_case_policy_witness :
    rate_word wtab "ddd".data = INIT_RATING ∧
    rate_word wtab "aaa".data = 99/100 ∧
    rate_word wtab "bbb".data = 1/100 ∧
    rate_word wtab "ccc".data =
      max (((2 : Nat) : ℚ) / (spam_total_count wtab : ℚ) /
          (((1 : Nat) : ℚ) / (ham_total_count wtab : ℚ) +
            ((2 : Nat) : ℚ) / (spam_total_count wtab : ℚ)))
        (1/100) :=
  ⟨(rate_word_case_policy wtab "ddd".data).1 (by decide),
    (rate_word_case_policy wtab "aaa".data).2.1 ⟨0, 2⟩ (by decide) (by decide) (by decide),
    (rate_word_case_policy wtab "bbb".data).2.2.1 ⟨3, 0⟩ (by decide) (by decide) (by decide),
    (rate_word_case_policy wtab "ccc".data).2.2.2 ⟨1, 2⟩ (by decide) (by decide) (by decide)
      (by decide) (by decide)⟩

/-! ### Claim C3 -/

/-- C3 counterexample: the claimed contract `estimate(token) ∈ [0.01, 0.99]
∪ {0.4}` fails: with token table `{"foo" ↦ (ham 1, spam 1), "bar" ↦
(ham 199, spam 0)}` the mixed branch gives `"foo"` the rating
`max((1/1) / (1/200 + 1/1), 0.01) = 200/201`, strictly greater than
`0.99`. -/
theorem rate_word_gt_099_counterexample :
    99/100 < rate_word [("foo".data, ⟨1, 1⟩), ("bar".data, ⟨199, 0⟩)] "foo".data := by
  have h : rate_word [("foo".data, ⟨1, 1⟩), ("bar".data, ⟨199, 0⟩)] "foo".data
      = 200/201 := by
    norm_num [rate_word, lookupToken, spam_total_count, ham_total_count]
  rw [h]
  norm_num

/-- C3 amended: the per-token estimate always lies in `[0.01, 1) ∪ {0.4}`:
it is either exactly `INIT_RATING`, or at least `0.01` and strictly below
`1` (but it can exceed `0.99`). -/
theorem rate_word_range (t : TokenTable) (w : Str) :
    rate_word t w = INIT_RATING ∨ (1/100 ≤ rate_word t w ∧ rate_word t w < 1) := by
  cases hl : lookupToken t w with
  | none => exact Or.inl (by simp [rate_word, hl])
  | some cnt =>
    simp only [rate_word, hl]
    by_cases h1 : cnt.spam > 0 ∧ cnt.ham = 0
    · rw [if_pos h1]
      exact Or.inr (by norm_num)
    · rw [if_neg h1]
      by_cases h2 : cnt.spam = 0 ∧ cnt.ham > 0
      · rw [if_pos h2]
        exact Or.inr (by norm_num)
      · rw [if_neg h2]
        by_cases h3 : spam_total_count t > 0 ∧ ham_total_count t > 0
        · rw [if_pos h3]
          refine Or.inr ⟨le_max_right _ _, ?_⟩
          apply max_lt _ (by norm_num)
          rcases Nat.eq_zero_or_pos cnt.spam with hs0 | hs
          · have hh0 : cnt.ham = 0 := by
              by_contra hne
              exact h2 ⟨hs0, Nat.pos_of_ne_zero hne⟩
            rw [hs0, hh0]
            norm_num
          · have hh : 0 < cnt.ham := by
              rcases Nat.eq_zero_or_pos cnt.ham with hh0 | hh
              · exact absurd ⟨hs, hh0⟩ h1
              · exact hh
            have hp_pos : 0 < (cnt.ham : ℚ) / (ham_total_count t : ℚ) :=
              div_pos (by exact_mod_cast hh) (by exact_mod_cast h3.2)
            have sp_pos : 0 < (cnt.spam : ℚ) / (spam_total_count t : ℚ) :=
              div_pos (by exact_mod_cast hs) (by exact_mod_cast h3.1)
            rw [div_lt_one (by linarith)]
            linarith
        · rw [if_neg h3]
          exact Or.inl rfl

/-! ### Frequency-model helper lemmas -/

theorem spam_total_increment_spam (t : TokenTable) (w : Str) :
    spam_total_count (increment_spam t w) = spam_total_count t + 1 := by
  induction t with
  | nil => simp [increment_spam, spam_total_count]
  | cons e t ih =>
    obtain ⟨k, c⟩ := e
    rw [increment_spam]
    by_cases hk : k = w
    · rw [if_pos hk]
      simp [spam_total_count]
      omega
    · rw [if_neg hk]
      simp only [spam_total_count, List.map_cons, List.sum_cons] at ih ⊢
      omega

theorem ham_total_increment_spam (t : TokenTable) (w : Str) :
    ham_total_count (increment_spam t w) = ham_total_count t := by
  induction t with
  | nil => simp [increment_spam, ham_total_count]
  | cons e t ih =>
    obtain ⟨k, c⟩ := e
    rw [increment_spam]
    by_cases hk : k = w
    · rw [if_pos hk]
      simp [ham_total_count]
    · rw [if_neg hk]
      simp only [ham_total_count, List.map_cons, List.sum_cons] at ih ⊢
      omega

theorem ham_total_increment_ham (t : TokenTable) (w : Str) :
    ham_total_count (increment_ham t w) = ham_total_count t + 1 := by
  induction t with
  | nil => simp [increment_ham, ham_total_count]
  | cons e t ih =>
    obtain ⟨k, c⟩ := e
    rw [increment_ham]
    by_cases hk : k = w
    · rw [if_pos hk]
      simp [ham_total_count]
      omega
    · rw [if_neg hk]
      simp only [ham_total_count, List.map_cons, List.sum_cons] at ih ⊢
      omega

theorem spam_total_increment_ham (t : TokenTable) (w : Str) :
    spam_total_count (increment_ham t w) = spam_total_count t := by
  induction t with
  | nil => simp [increment_ham, spam_total_count]
  | cons e t ih =>
    obtain ⟨k, c⟩ := e
    rw [increment_ham]
    by_cases hk : k = w
    · rw [if_pos hk]
      simp [spam_total_count]
    · rw [if_neg hk]
      simp only [spam_total_count, List.map_cons, List.sum_cons] at ih ⊢
      omega

theorem totals_foldl_increment_spam (ws : List Str) (t : TokenTable) :
    spam_total_count (ws.foldl increment_spam t) = spam_total_count t + ws.length ∧
    ham_total_count (ws.foldl increment_spam t) = ham_total_count t := by
  induction ws generalizing t with
  | nil => simp
  | cons w ws ih =>
    simp only [List.foldl_cons, List.length_cons]
    obtain ⟨h1, h2⟩ := ih (increment_spam t w)
    rw [h1, h2, spam_total_increment_spam, ham_total_increment_spam]
    omega

theorem totals_foldl_increment_ham (ws : List Str) (t : TokenTable) :
    ham_total_count (ws.foldl increment_ham t) = ham_total_count t + ws.length ∧
    spam_total_count (ws.foldl increment_ham t) = spam_total_count t := by
  induction ws generalizing t with
  | nil => simp
  | cons w ws ih =>
    simp only [List.foldl_cons, List.length_cons]
    obtain ⟨h1, h2⟩ := ih (increment_ham t w)
    rw [h1, h2, ham_total_increment_ham, spam_total_increment_ham]
    omega

theorem lookupToken_increment_spam_absent (t : TokenTable) (w : Str)
    (h : lookupToken t w = none) :
    lookupToken (increment_spam t w) w = some ⟨0, 1⟩ := by
  induction t with
  | nil => simp [increment_spam, lookupToken]
  | cons e t ih =>
    obtain ⟨k, c⟩ := e
    rw [lookupToken] at h
    by_cases hk : k = w
    · rw [if_pos hk] at h
      cases h
    · rw [if_neg hk] at h
      rw [increment_spam, if_neg hk, lookupToken, if_neg hk]
      exact ih h

theorem lookupToken_increment_ham_absent (t : TokenTable) (w : Str)
    (h : lookupToken t w = none) :
    lookupToken (increment_ham t w) w = some ⟨1, 0⟩ := by
  induction t with
  | nil => simp [increment_ham, lookupToken]
  | cons e t ih =>
    obtain ⟨k, c⟩ := e
    rw [lookupToken] at h
    by_cases hk : k = w
    · rw [if_pos hk] at h
      cases h
    · rw [if_neg hk] at h
      rw [increment_ham, if_neg hk, lookupToken, if_neg hk]
      exact ih h

theorem ham_le_total (t : TokenTable) (w : Str) (cnt : Counter)
    (h : lookupToken t w = some cnt) : cnt.ham ≤ ham_total_count t := by
  induction t with
  | nil => cases h
  | cons e t ih =>
    obtain ⟨k, c⟩ := e
    rw [lookupToken] at h
    by_cases hk : k = w
    · rw [if_pos hk] at h
      injection h with h
      subst h
      simp [ham_total_count]
    · rw [if_neg hk] at h
      have := ih h
      simp only [ham_total_count, List.map_cons, List.sum_cons] at this ⊢
      omega

theorem spam_le_total (t : TokenTable) (w : Str) (cnt : Counter)
    (h : lookupToken t w = some cnt) : cnt.spam ≤ spam_total_count t := by
  induction t with
  | nil => cases h
  | cons e t ih =>
    obtain ⟨k, c⟩ := e
    rw [lookupToken] at h
    by_cases hk : k = w
    · rw [if_pos hk] at h
      injection h with h
      subst h
      simp [spam_total_count]
    · rw [if_neg hk] at h
      have := ih h
      simp only [spam_total_count, List.map_cons, List.sum_cons] at this ⊢
      omega

theorem lookupToken_mem (t : TokenTable) (w : Str) (cnt : Counter)
    (h : lookupToken t w = some cnt) : (w, cnt) ∈ t := by
  induction t with
  | nil => cases h
  | cons e t ih =>
    obtain ⟨k, c⟩ := e
    rw [lookupToken] at h
    by_cases hk : k = w
    · rw [if_pos hk] at h
      injection h with h
      subst hk
      subst h
      exact List.mem_cons_self _ _
    · rw [if_neg hk] at h
      exact List.mem_cons_of_mem _ (ih h)

theorem increment_spam_pos (t : TokenTable) (w : Str)
    (H : ∀ e ∈ t, 0 < e.2.ham + e.2.spam) :
    ∀ e ∈ increment_spam t w, 0 < e.2.ham + e.2.spam := by
  induction t with
  | nil =>
    intro e he
    simp [increment_spam] at he
    subst he
    simp
  | cons ec t ih =>
    obtain ⟨k, c⟩ := ec
    intro e he
    rw [increment_spam] at he
    by_cases hk : k = w
    · rw [if_pos hk] at he
      rcases List.mem_cons.mp he with rfl | he
      · simp
      · exact H e (List.mem_cons_of_mem _ he)
    · rw [if_neg hk] at he
      rcases List.mem_cons.mp he with rfl | he
      · exact H _ (List.mem_cons_self _ _)
      · exact ih (fun x hx => H x (List.mem_cons_of_mem _ hx)) e he

theorem increment_ham_pos (t : TokenTable) (w : Str)
    (H : ∀ e ∈ t, 0 < e.2.ham + e.2.spam) :
    ∀ e ∈ increment_ham t w, 0 < e.2.ham + e.2.spam := by
  induction t with
  | nil =>
    intro e he
    simp [increment_ham] at he
    subst he
    simp
  | cons ec t ih =>
    obtain ⟨k, c⟩ := ec
    intro e he
    rw [increment_ham] at he
    by_cases hk : k = w
    · rw [if_pos hk] at he
      rcases List.mem_cons.mp he with rfl | he
      · simp
      · exact H e (List.mem_cons_of_mem _ he)
    · rw [if_neg hk] at he
      rcases List.mem_cons.mp he with rfl | he
      · exact H _ (List.mem_cons_self _ _)
      · exact ih (fun x hx => H x (List.mem_cons_of_mem _ hx)) e he

theorem built_pos (t : TokenTable) (hb : Built t) :
    ∀ e ∈ t, 0 < e.2.ham + e.2.spam := by
  induction hb with
  | empty =>
    intro e he
    cases he
  | step_spam t msg _ ih =>
    rw [train_spam]
    generalize load_word_list msg = ws
    clear * - ih
    induction ws generalizing t with
    | nil => exact ih
    | cons w ws ihw =>
      simp only [List.foldl_cons]
      exact ihw (increment_spam t w) (increment_spam_pos t w ih)
  | step_ham t msg _ ih =>
    rw [train_ham]
    generalize load_word_list msg = ws
    clear * - ih
    induction ws generalizing t with
    | nil => exact ih
    | cons w ws ihw =>
      simp only [List.foldl_cons]
      exact ihw (increment_ham t w) (increment_ham_pos t w ih)

/-! ### Claim C4 -/

/-- C4: one `train_spam` or `train_ham` call increases
`ham_total() + spam_total()` by exactly the number of tokens produced by
tokenizing the message (each repeated occurrence counted separately), and
an absent token receives a fresh `(0,0)` counter before its first
increment, so its counter right after the increment is `(0,1)` (spam
training) or `(1,0)` (ham training). -/
theorem train_total_increase (t : TokenTable) (msg : Str) :
    ham_total_count (train_spam t msg) + spam_total_count (train_spam t msg)
        = ham_total_count t + spam_total_count t + (load_word_list msg).length ∧
    ham_total_count (train_ham t msg) + spam_total_count (train_ham t msg)
        = ham_total_count t + spam_total_count t + (load_word_list msg).length ∧
    ∀ w, lookupToken t w = none →
      lookupToken (increment_spam t w) w = some ⟨0, 1⟩ ∧
      lookupToken (increment_ham t w) w = some ⟨1, 0⟩ := by
  obtain ⟨hs1, hs2⟩ := totals_foldl_increment_spam (load_word_list msg) t
  obtain ⟨hh1, hh2⟩ := totals_foldl_increment_ham (load_word_list msg) t
  refine ⟨?_, ?_, fun w hw =>
    ⟨lookupToken_increment_spam_absent t w hw, lookupToken_increment_ham_absent t w hw⟩⟩
  · rw [train_spam, hs1, hs2]
    omega
  · rw [train_ham, hh1, hh2]
    omega

/-- Witness for C4: training the empty model with a three-token message
(one token repeated) raises the combined total from 0 to 3, and the absent
token "foo" gets counter `(0,1)` / `(1,0)` after one increment. -/
theorem train_total_increase_witness :
    (ham_total_count (train_spam [] "foo bar foo".data) +
        spam_total_count (train_spam [] "foo bar foo".data)
      = ham_total_count ([] : TokenTable) + spam_total_count ([] : TokenTable) +
        (load_word_list "foo bar foo".data).length) ∧
    lookupToken ([] : TokenTable) "foo".data = none ∧
    lookupToken (increment_spam [] "foo".data) "foo".data = some ⟨0, 1⟩ ∧
    lookupToken (increment_ham [] "foo".data) "foo".data = some ⟨1, 0⟩ :=
  ⟨(train_total_increase [] "foo bar foo".data).1, by decide,
    ((train_total_increase [] "foo bar foo".data).2.2 "foo".data (by decide)).1,
    ((train_total_increase [] "foo bar foo".data).2.2 "foo".data (by decide)).2⟩

/-! ### Claim C8 -/

/-- C8: in a model built by training, a token whose counter has both
fields positive forces both global totals positive (each total is a sum
over all counters, including this one), so the estimator takes the mixed
formula branch and the degenerate `INIT_RATING` fallback for a present
token with both counts positive is unreachable. -/
theorem both_positive_formula (t : TokenTable) (_hb : Built t) (w : Str) (cnt : Counter)
    (hl : lookupToken t w = some cnt) (hham : 0 < cnt.ham) (hspam : 0 < cnt.spam) :
    0 < ham_total_count t ∧ 0 < spam_total_count t ∧
    rate_word t w =
      max ((cnt.spam : ℚ) / (spam_total_count t : ℚ) /
          ((cnt.ham : ℚ) / (ham_total_count t : ℚ) +
            (cnt.spam : ℚ) / (spam_total_count t : ℚ)))
        (1/100) := by
  have hht : 0 < ham_total_count t := lt_of_lt_of_le hham (ham_le_total t w cnt hl)
  have hst : 0 < spam_total_count t := lt_of_lt_of_le hspam (spam_le_total t w cnt hl)
  refine ⟨hht, hst, ?_⟩
  simp only [rate_word, hl]
  rw [if_neg (by omega), if_neg (by omega), if_pos (And.intro hst hht)]

/-- A table reached by training "foo" once as spam then once as ham. -/
def bothTab : TokenTable :=
  train_ham (train_spam [] "foo".data) "foo".data

/-- Witness for C8 at a model trained with "foo" as spam once and ham
once. -/
theorem both_positive_formula_witness :
    lookupToken bothTab "foo".data = some ⟨1, 1⟩ ∧
    (0 < ham_total_count bothTab ∧ 0 < spam_total_count bothTab ∧
      rate_word bothTab "foo".data =
        max (((1 : Nat) : ℚ) / (spam_total_count bothTab : ℚ) /
            (((1 : Nat) : ℚ) / (ham_total_count bothTab : ℚ) +
              ((1 : Nat) : ℚ) / (spam_total_count bothTab : ℚ)))
          (1/100)) :=
  ⟨by decide,
    both_positive_formula bothTab
      (Built.step_ham _ _ (Built.step_spam _ _ Built.empty)) "foo".data ⟨1, 1⟩
      (by decide) (by decide) (by decide)⟩

/-! ### Claim C10 -/

/-- C10: in a model built by training, every rating handed to the sorting
comparator inside `score` is a well-defined rational: `INIT_RATING`,
`0.99`, `0.01`, or `max(sp / (hp + sp), 0.01)` with `hp` and `sp` strictly
positive (so the quotient has a nonzero denominator); in particular every
rating lies in `(0, 1)`, every pair of ratings is comparable, and `score`
is a total function of the message. -/
theorem rate_words_well_defined (t : TokenTable) (msg : Str) (hb : Built t) :
    ∀ r ∈ rate_words t msg,
      (r = INIT_RATING ∨ r = 99/100 ∨ r = 1/100 ∨
        ∃ hp sp : ℚ, 0 < hp ∧ 0 < sp ∧ r = max (sp / (hp + sp)) (1/100)) ∧
      0 < r ∧ r < 1 := by
  intro r hr
  rw [rate_words] at hr
  obtain ⟨w, hw, rfl⟩ := List.mem_map.mp hr
  have hcase : rate_word t w = INIT_RATING ∨ rate_word t w = 99/100 ∨
      rate_word t w = 1/100 ∨
      ∃ hp sp : ℚ, 0 < hp ∧ 0 < sp ∧ rate_word t w = max (sp / (hp + sp)) (1/100) := by
    cases hl : lookupToken t w with
    | none => exact Or.inl (by simp [rate_word, hl])
    | some cnt =>
      have hpos := built_pos t hb (w, cnt) (lookupToken_mem t w cnt hl)
      by_cases h1 : cnt.spam > 0 ∧ cnt.ham = 0
      · refine Or.inr (Or.inl ?_)
        simp only [rate_word, hl]
        rw [if_pos h1]
      · by_cases h2 : cnt.spam = 0 ∧ cnt.ham > 0
        · refine Or.inr (Or.inr (Or.inl ?_))
          simp only [rate_word, hl]
          rw [if_neg h1, if_pos h2]
        · have hspam : 0 < cnt.spam := by
            rcases Nat.eq_zero_or_pos cnt.spam with hs0 | hs
            · simp only at hpos
              exact absurd ⟨hs0, by omega⟩ h2
            · exact hs
          have hham : 0 < cnt.ham := by
            rcases Nat.eq_zero_or_pos cnt.ham with hh0 | hh
            · exact absurd ⟨hspam, hh0⟩ h1
            · exact hh
          have hht : 0 < ham_total_count t :=
            lt_of_lt_of_le hham (ham_le_total t w cnt hl)
          have hst : 0 < spam_total_count t :=
            lt_of_lt_of_le hspam (spam_le_total t w cnt hl)
          refine Or.inr (Or.inr (Or.inr
            ⟨(cnt.ham : ℚ) / (ham_total_count t : ℚ),
              (cnt.spam : ℚ) / (spam_total_count t : ℚ),
              div_pos (by exact_mod_cast hham) (by exact_mod_cast hht),
              div_pos (by exact_mod_cast hspam) (by exact_mod_cast hst), ?_⟩))
          simp only [rate_word, hl]
          rw [if_neg h1, if_neg h2, if_pos (And.intro hst hht)]
  refine ⟨hcase, ?_⟩
  rcases hcase with h | h | h | ⟨hp, sp, hhp, hsp, h⟩ <;> rw [h]
  · exact ⟨by norm_num [INIT_RATING], by norm_num [INIT_RATING]⟩
  · exact ⟨by norm_num, by norm_num⟩
  · exact ⟨by norm_num, by norm_num⟩
  · constructor
    · exact lt_of_lt_of_le (by norm_num) (le_max_right _ _)
    · apply max_lt _ (by norm_num)
      rw [div_lt_one (by linarith)]
      linarith

/-- Witness for C10 at a model trained once with the spam message "foo":
the single rating of message "foo" is `0.99`. -/
theorem rate_words_well_defined_witness :
    (99 : ℚ)/100 ∈ rate_words (train_spam [] "foo".data) "foo".data ∧
    (((99 : ℚ)/100 = INIT_RATING ∨ (99 : ℚ)/100 = 99/100 ∨ (99 : ℚ)/100 = 1/100 ∨
        ∃ hp sp : ℚ, 0 < hp ∧ 0 < sp ∧ (99 : ℚ)/100 = max (sp / (hp + sp)) (1/100)) ∧
      0 < (99 : ℚ)/100 ∧ (99 : ℚ)/100 < 1) := by
  have hload : load_word_list "foo".data = ["foo".data] := by decide
  have hmem : (99 : ℚ)/100 ∈ rate_words (train_spam [] "foo".data) "foo".data := by
    simp [rate_words, rate_word, train_spam, hload, increment_spam, lookupToken]
  exact ⟨hmem,
    rate_words_well_defined (train_spam [] "foo".data) "foo".data
      (Built.step_spam _ _ Built.empty) ((99 : ℚ)/100) hmem⟩

/-! ### Claim C9 -/

/-- C9: the module-level convenience functions open the fixed default
model path; every open or parse failure is returned to the caller as a
typed error (never a panic or a default value), a successful load scores
with the loaded model, and `identify` propagates exactly the error of
`score`. -/
theorem pretrained_error_propagation {ε φ : Type} (openFile : Str → Except ε φ)
    (from_reader : φ → Except ε TokenTable) (msg : Str) :
    (∀ e, openFile DEFAULT_FILE_PATH = .error e →
      score_pretrained openFile from_reader msg = .error e ∧
      identify_pretrained openFile from_reader msg = .error e) ∧
    (∀ f e, openFile DEFAULT_FILE_PATH = .ok f → from_reader f = .error e →
      score_pretrained openFile from_reader msg = .error e ∧
      identify_pretrained openFile from_reader msg = .error e) ∧
    (∀ f t, openFile DEFAULT_FILE_PATH = .ok f → from_reader f = .ok t →
      score_pretrained openFile from_reader msg = .ok (score t msg) ∧
      identify_pretrained openFile from_reader msg = .ok (identify t msg)) ∧
    (∀ e, score_pretrained openFile from_reader msg = .error e ↔
      identify_pretrained openFile from_reader msg = .error e) := by
  refine ⟨fun e h => ?_, fun f e h1 h2 => ?_, fun f t h1 h2 => ?_, fun e => ?_⟩
  · exact ⟨by simp [score_pretrained, h],
      by simp [identify_pretrained, score_pretrained, h]⟩
  · exact ⟨by simp [score_pretrained, h1, h2],
      by simp [identify_pretrained, score_pretrained, h1, h2]⟩
  · exact ⟨by simp [score_pretrained, h1, h2],
      by simp [identify_pretrained, score_pretrained, identify, h1, h2]⟩
  · rw [identify_pretrained]
    cases hs : score_pretrained openFile from_reader msg <;> simp

/-- Witness for C9: concrete open failure, parse failure, and success. -/
theorem pretrained_error_propagation_witness :
    (score_pretrained (fun _ => (Except.error 7 : Except Nat TokenTable))
        Except.ok "foo".data = Except.error 7 ∧
      identify_pretrained (fun _ => (Except.error 7 : Except Nat TokenTable))
        Except.ok "foo".data = Except.error 7) ∧
    (score_pretrained (fun _ => (Except.ok [] : Except Nat TokenTable))
        (fun _ => Except.error 5) "foo".data = Except.error 5 ∧
      identify_pretrained (fun _ => (Except.ok [] : Except Nat TokenTable))
        (fun _ => Except.error 5) "foo".data = Except.error 5) ∧
    (score_pretrained (fun _ => (Except.ok [] : Except Nat TokenTable))
        Except.ok "foo".data = Except.ok (score [] "foo".data) ∧
      identify_pretrained (fun _ => (Except.ok [] : Except Nat TokenTable))
        Except.ok "foo".data = Except.ok (identify [] "foo".data)) :=
  ⟨(pretrained_error_propagation (fun _ => Except.error 7) Except.ok "foo".data).1 7 rfl,
    (pretrained_error_propagation (fun _ => Except.ok []) (fun _ => Except.error 5)
      "foo".data).2.1 [] 5 rfl rfl,
    (pretrained_error_propagation (fun _ => Except.ok []) Except.ok
      "foo".data).2.2.1 [] [] rfl rfl⟩

/-! ### Claim C7 -/

theorem intercalate_single_eq (x : Char) (w : Str) :
    List.intercalate [x] [w] = w := by
  simp [List.intercalate]

theorem intercalate_cons_cons_eq (x : Char) (w w2 : Str) (rest : List Str) :
    List.intercalate [x] (w :: w2 :: rest) = w ++ x :: List.intercalate [x] (w2 :: rest) := by
  simp [List.intercalate]

theorem mem_intercalate_space (ws : List Str) :
    ∀ c ∈ List.intercalate [' '] ws, c = ' ' ∨ ∃ w ∈ ws, c ∈ w := by
  induction ws with
  | nil =>
    intro c hc
    simp [List.intercalate] at hc
  | cons w rest ih =>
    cases rest with
    | nil =>
      intro c hc
      rw [intercalate_single_eq] at hc
      exact Or.inr ⟨w, List.mem_cons_self _ _, hc⟩
    | cons w2 rest2 =>
      intro c hc
      rw [intercalate_cons_cons_eq] at hc
      rcases List.mem_append.mp hc with h | h
      · exact Or.inr ⟨w, List.mem_cons_self _ _, h⟩
      · rcases List.mem_cons.mp h with rfl | h
        · exact Or.inl rfl
        · rcases ih c h with h | ⟨w3, hw3, hc3⟩
          · exact Or.inl h
          · exact Or.inr ⟨w3, List.mem_cons_of_mem _ hw3, hc3⟩

theorem splitWhitespace_intercalate (ws : List Str)
    (hne : ∀ w ∈ ws, w ≠ [])
    (hnw : ∀ w ∈ ws, ∀ c ∈ w, c.isWhitespace = false) :
    splitWhitespace (List.intercalate [' '] ws) = ws := by
  induction ws with
  | nil => rfl
  | cons w rest ih =>
    have hwne : w ≠ [] := hne w (List.mem_cons_self _ _)
    have hwfree : ∀ x ∈ w, ¬((fun c : Char => c.isWhitespace) x = true) := by
      intro x hx
      simp [hnw w (List.mem_cons_self _ _) x hx]
    cases rest with
    | nil =>
      rw [intercalate_single_eq, splitWhitespace, List.splitOnP_eq_single _ _ hwfree]
      simp [List.isEmpty_iff, hwne]
    | cons w2 rest2 =>
      rw [intercalate_cons_cons_eq, splitWhitespace,
        List.splitOnP_first _ _ hwfree ' ' (by decide)]
      rw [List.filter_cons_of_pos (by simp [List.isEmpty_iff, hwne])]
      have ihres := ih (fun v hv => hne v (List.mem_cons_of_mem _ hv))
        (fun v hv => hnw v (List.mem_cons_of_mem _ hv))
      rw [splitWhitespace] at ihres
      rw [ihres]

/-- C7: tokenization is idempotent under rejoining: splitting the tokens
of a message, joining them with single spaces and tokenizing again yields
exactly the same token sequence. -/
theorem load_word_list_idempotent (m : Str) :
    load_word_list (List.intercalate [' '] (load_word_list m)) = load_word_list m := by
  have hmem := load_word_list_mem m
  have hne : ∀ w ∈ load_word_list m, w ≠ [] := by
    intro w hw hnil
    have := (hmem w hw).1
    rw [hnil] at this
    simp at this
  have hgood : ∀ w ∈ load_word_list m, ∀ c ∈ w, GoodChar c := fun w hw => (hmem w hw).2
  have hnw : ∀ w ∈ load_word_list m, ∀ c ∈ w, c.isWhitespace = false :=
    fun w hw c hc => (goodChar_props (hgood w hw c hc)).2.1
  have hkeep : ∀ c ∈ List.intercalate [' '] (load_word_list m), keepChar c = true := by
    intro c hc
    rcases mem_intercalate_space _ c hc with rfl | ⟨w, hw, hc2⟩
    · decide
    · exact (goodChar_props (hgood w hw c hc2)).1
  have hclean : cleanChars (List.intercalate [' '] (load_word_list m))
      = List.intercalate [' '] (load_word_list m) :=
    List.filter_eq_self.mpr hkeep
  conv_lhs => rw [load_word_list]
  rw [hclean, splitWhitespace_intercalate _ hne hnw]
  have hmap : (load_word_list m).map (fun w => w.map Char.toLower) = load_word_list m := by
    have hfix : ∀ w ∈ load_word_list m, (fun v : Str => v.map Char.toLower) w = id w := by
      intro w hw
      have hcfix : ∀ c ∈ w, Char.toLower c = id c :=
        fun c hc => (goodChar_props (hgood w hw c hc)).2.2
      simp only [id]
      rw [List.map_congr_left hcfix, List.map_id]
    rw [List.map_congr_left hfix, List.map_id]
  rw [hmap]
  apply List.filter_eq_self.mpr
  intro w hw
  simpa using (hmem w hw).1

/-! ### Claim C1 -/

/-- C1: for every message with a non-empty rating sequence,
`score = product / (product + alt_product)` over the kept ratings, where
`alt_product` multiplies `(1 - r)`; with more than 20 ratings the kept
ratings are the first 10 and last 10 of an ascending-sorted arrangement of
the rating multiset (any such arrangement — the sort is only determined up
to permutation of ties), i.e. the 10 numerically lowest and 10 numerically
highest ratings, and with at most 20 ratings all of them are kept. -/
theorem score_formula_truncation (t : TokenTable) (msg : Str)
    (h : rate_words t msg ≠ []) :
    ∃ sorted kept : List ℚ,
      List.Perm sorted (rate_words t msg) ∧
      List.Sorted (fun a b : ℚ => a ≤ b) sorted ∧
      kept = (if 20 < (rate_words t msg).length then
          sorted.take 10 ++ sorted.drop (sorted.length - 10)
        else rate_words t msg) ∧
      score t msg = kept.prod / (kept.prod + (kept.map (fun r => 1 - r)).prod) := by
  have hlen0 : ¬((rate_words t msg).length = 0) := fun hh =>
    h (List.length_eq_zero.mp hh)
  have hperm : List.Perm ((rate_words t msg).mergeSort (fun a b => decide (a ≤ b)))
      (rate_words t msg) :=
    List.mergeSort_perm (rate_words t msg) _
  have htrans : ∀ a b c : ℚ, decide (a ≤ b) = true → decide (b ≤ c) = true →
      decide (a ≤ c) = true := by
    intro a b c hab hbc
    simp only [decide_eq_true_eq] at hab hbc ⊢
    exact le_trans hab hbc
  have htotal : ∀ a b : ℚ, (decide (a ≤ b) || decide (b ≤ a)) = true := by
    intro a b
    simp only [Bool.or_eq_true, decide_eq_true_eq]
    exact le_total a b
  have hsorted : List.Sorted (fun a b : ℚ => a ≤ b)
      ((rate_words t msg).mergeSort (fun a b => decide (a ≤ b))) := by
    have hpair := List.sorted_mergeSort htrans htotal (rate_words t msg)
    exact hpair.imp (fun hab => by simpa using hab)
  refine ⟨(rate_words t msg).mergeSort (fun a b => decide (a ≤ b)), _,
    hperm, hsorted, rfl, ?_⟩
  by_cases h20 : 20 < (rate_words t msg).length
  · simp only [score, if_neg hlen0, if_pos h20, List.length_mergeSort]
  · simp only [score, if_neg hlen0, if_neg h20]

/-- Witness for C1 at the empty model and a three-token message. -/
theorem score_formula_truncation_witness :
    rate_words [] "foo bar baz".data ≠ [] ∧
    (∃ sorted kept : List ℚ,
      List.Perm sorted (rate_words [] "foo bar baz".data) ∧
      List.Sorted (fun a b : ℚ => a ≤ b) sorted ∧
      kept = (if 20 < (rate_words [] "foo bar baz".data).length then
          sorted.take 10 ++ sorted.drop (sorted.length - 10)
        else rate_words [] "foo bar baz".data) ∧
      score [] "foo bar baz".data =
        kept.prod / (kept.prod + (kept.map (fun r => 1 - r)).prod)) :=
  ⟨by decide, score_formula_truncation [] "foo bar baz".data (by decide)⟩

end Bayespam
